import Mathlib

/-!
Shallow embedding of the rainflow cycle-counting core
(`src/rainflow/rainflow.js`) over the rationals.

JavaScript numbers are modelled by `ℚ`; the embedding covers the core's
behaviour on finite numeric signals (the idealisation of IEEE doubles the
specification itself works in).  Signal indices are `ℕ`.

The `CycleExtractor` working stack is represented head-first: the head of
the list is the newest (top) point, so `points[points.length - 1]` in the
JavaScript source is the head, `points.push` is `List.cons`, and
`points.shift` removes the last element.  The drain loop, which reads from
the bottom of the stack, therefore runs over the reversed list.

The JavaScript histogram object keyed by numbers is represented as an
association list in insertion order; `Object.entries(...).sort(...)` with
the numeric comparator is represented by a merge sort on the keys (all
keys are pairwise distinct, so the sorted sequence is unique and the
JS engine's intermediate key enumeration order is irrelevant).
-/

namespace Rainflow

/-- A reversal point `[index, value]` as produced by `reversals`. -/
abbrev RPoint : Type := ℕ × ℚ

/-- A cycle record `[rng, mean, count, i1, i2]` as produced by
`formatOutput` inside `extractCycles`. -/
abbrev Cycle : Type := ℚ × ℚ × ℚ × ℕ × ℕ

/-- The scan loop of `reversals` (`for (let i = 1; i < series.length; i++)`).

`x` and `dLast` are the loop state (`xLast` is dead apart from feeding
`dLast`, so it is not threaded separately); `rest` carries the remaining
`(i, series[i])` pairs.  When the scan ends the function performs the
unconditional `result.push([series.length - 1, x])` of the source, with
`lastIdx = series.length - 1`. -/
def revLoop (x dLast : ℚ) (lastIdx : ℕ) : List (ℕ × ℚ) → List RPoint
  | [] => [(lastIdx, x)]
  | (i, xNext) :: rest =>
      if xNext = x then revLoop x dLast lastIdx rest
      else
        if dLast * (xNext - x) < 0 then
          (i, x) :: revLoop xNext (xNext - x) lastIdx rest
        else
          revLoop xNext (xNext - x) lastIdx rest

/-- `reversals(series)` from the source.  The source reads `series[0]` and
`series[1]` unconditionally, so the embedding is meaningful for signals of
length ≥ 2 (shorter signals make the JS code read `undefined`; the model
returns `[]` there).  The scan starts at index 1; the `i = 1` iteration
always hits the `xNext === x` skip since `x` is `series[1]` itself. -/
def reversals (series : List ℚ) : List RPoint :=
  match series with
  | x0 :: x1 :: _ =>
      (0, x0) :: revLoop x1 (x1 - x0) (series.length - 1) (series.enum.drop 1)
  | _ => []

/-- `formatOutput(point1, point2, count)` from `extractCycles`. -/
def formatOutput (point1 point2 : RPoint) (count : ℚ) : Cycle :=
  (|point1.2 - point2.2|, (1 / 2) * (point1.2 + point2.2), count, point1.1, point2.1)

/-- The inner `while (points.length >= 3)` loop of `extractCycles`, run
just after pushing `top`.  The list argument is the stack below the top,
head-first (so the stack is `top :: below`).  Returns the cycles emitted
by the loop in order, and the stack at loop exit.

In the `points.length === 3` branch the source shifts the bottom point,
leaving a 2-point stack on which the `while` condition immediately fails,
so the loop result is returned directly there. -/
def closeLoop (top : RPoint) : List RPoint → List Cycle × List RPoint
  | p2 :: p1 :: rest =>
      if |top.2 - p2.2| < |p2.2 - p1.2| then
        ([], top :: p2 :: p1 :: rest)
      else
        match rest with
        | [] => ([formatOutput p1 p2 (1 / 2)], [top, p2])
        | _ :: _ =>
            (formatOutput p1 p2 1 :: (closeLoop top rest).1, (closeLoop top rest).2)
  | below => ([], top :: below)

/-- The `for (const point of reversals(series))` loop of `extractCycles`:
push each incoming reversal and run the closure loop.  Returns the emitted
cycles and the final working stack (head-first). -/
def extractLoop (points : List RPoint) : List RPoint → List Cycle × List RPoint
  | [] => ([], points)
  | r :: rs =>
      (((closeLoop r points).1 ++ (extractLoop (closeLoop r points).2 rs).1),
        (extractLoop (closeLoop r points).2 rs).2)

/-- The final `while (points.length > 1)` drain loop of `extractCycles`,
over the stack in bottom-first order (`p0` is `points[0]`). -/
def drain (p0 : RPoint) : List RPoint → List Cycle
  | [] => []
  | p1 :: rest => formatOutput p0 p1 (1 / 2) :: drain p1 rest

/-- The drain phase on the whole remaining stack in bottom-first order
(an empty stack drains to nothing — the `while (points.length > 1)`
condition fails immediately). -/
def drainAll : List RPoint → List Cycle
  | [] => []
  | p0 :: rest => drain p0 rest

/-- `extractCycles(series)` from the source: consume all reversals, then
drain the remaining stack from the bottom. -/
def extractCycles (series : List ℚ) : List Cycle :=
  (extractLoop [] (reversals series)).1 ++
    drainAll (((extractLoop [] (reversals series)).2).reverse)

/-- `counts[k] = (counts[k] || 0) + v` on the histogram object: add `v`
into key `k` of the association list, appending the key if absent.  (All
stored totals are sums of cycle counts; when the stored value is `0` the
JS `|| 0` also yields `0`, so the translation is exact.) -/
def bump (counts : List (ℚ × ℚ)) (k v : ℚ) : List (ℚ × ℚ) :=
  match counts with
  | [] => [(k, v)]
  | (k1, v1) :: rest =>
      if k1 = k then (k1, v1 + v) :: rest else (k1, v1) :: bump rest k v

/-- `counts[k] = counts[k] || 0` in the densification loop: create key `k`
with total `0` if it is absent, otherwise leave the list unchanged. -/
def ensure (counts : List (ℚ × ℚ)) (k : ℚ) : List (ℚ × ℚ) :=
  if counts.any (fun e => decide (e.1 = k)) then counts else counts ++ [(k, 0)]

/-- The accumulation pass of the binned branch of `countCycles`: for each
`(rng, count)` add `count` into bucket `ceil(rng / binsize) * binsize`.
(The JS loop also folds `nmax` in the same pass; the two accumulations are
independent, and the `nmax` component is `nmaxOf` below.) -/
def binCounts (binsize : ℚ) (cycles : List (ℚ × ℚ)) : List (ℚ × ℚ) :=
  cycles.foldl (fun acc rc => bump acc ((⌈rc.1 / binsize⌉ : ℤ) * binsize) rc.2) []

/-- The `nmax = Math.max(n, nmax)` accumulation of the binned branch of
`countCycles`, starting from `0`. -/
def nmaxOf (binsize : ℚ) (cycles : List (ℚ × ℚ)) : ℤ :=
  cycles.foldl (fun m rc => max ⌈rc.1 / binsize⌉ m) 0

/-- The densification loop `for (let i = 1; i < nmax; i++)` of
`countCycles`: ensure a bucket exists at `i * binsize` for each integer
`i` with `1 ≤ i < nmax`. -/
def densify (binsize : ℚ) (nmax : ℤ) (counts : List (ℚ × ℚ)) : List (ℚ × ℚ) :=
  (List.range (nmax - 1).toNat).foldl
    (fun acc (j : ℕ) => ensure acc (((j : ℚ) + 1) * binsize)) counts

/-- `Object.entries(counts).sort((a, b) => a[0] - b[0])`: the histogram
entries in ascending numeric key order. -/
def sortEntries (counts : List (ℚ × ℚ)) : List (ℚ × ℚ) :=
  counts.mergeSort (fun a b => decide (a.1 ≤ b.1))

/-- The aggregation part of `countCycles`, acting on the `[rng, count]`
pairs already projected from the cycles (`binsize !== null` selects the
binned branch). -/
def aggregate (cycles : List (ℚ × ℚ)) : Option ℚ → List (ℚ × ℚ)
  | some binsize =>
      sortEntries (densify binsize (nmaxOf binsize cycles) (binCounts binsize cycles))
  | none => sortEntries (cycles.foldl (fun acc rc => bump acc rc.1 rc.2) [])

/-- `countCycles(series, binsize)` from the source: project each cycle to
`[rng, count]` and aggregate. -/
def countCycles (series : List ℚ) (binsize : Option ℚ) : List (ℚ × ℚ) :=
  aggregate ((extractCycles series).map (fun c => (c.1, c.2.2.1))) binsize

/-- Sum of the `count` field over a cycle list. -/
def cycleCountSum (cycles : List Cycle) : ℚ :=
  (cycles.map (fun c => c.2.2.1)).sum

/-- Sum of the second components (the totals) of histogram entries or of
`[rng, count]` pairs. -/
def sumSnd (l : List (ℚ × ℚ)) : ℚ :=
  (l.map Prod.snd).sum

/-- The working-stack invariant of the claim: successive ranges strictly
decrease from the bottom of the stack to the top.  The stack is
head-first (head = newest), so the list of consecutive ranges read from
the top downwards must be strictly increasing. -/
def rangesDecreasing (stack : List RPoint) : Prop :=
  List.Chain' (· < ·) (List.zipWith (fun a b => |a.2 - b.2|) stack stack.tail)

/-- Fuel-indexed version of the inner `while (points.length >= 3)` loop,
one unit of fuel per loop iteration, acting on the whole stack
(head-first); `none` means the fuel ran out before the loop exited. -/
def closeLoopF : ℕ → List RPoint → Option (List Cycle × List RPoint)
  | 0, _ => none
  | fuel + 1, points =>
      match points with
      | p3 :: p2 :: p1 :: rest =>
          if |p3.2 - p2.2| < |p2.2 - p1.2| then some ([], points)
          else
            match rest with
            | [] =>
                match closeLoopF fuel [p3, p2] with
                | none => none
                | some s => some (formatOutput p1 p2 (1 / 2) :: s.1, s.2)
            | _ :: _ =>
                match closeLoopF fuel (p3 :: rest) with
                | none => none
                | some s => some (formatOutput p1 p2 1 :: s.1, s.2)
      | _ => some ([], points)

/-- Fuel-indexed version of the final `while (points.length > 1)` drain
loop, on the stack in bottom-first order. -/
def drainF : ℕ → List RPoint → Option (List Cycle)
  | 0, _ => none
  | fuel + 1, points =>
      match points with
      | p0 :: p1 :: rest =>
          match drainF fuel (p1 :: rest) with
          | none => none
          | some cs => some (formatOutput p0 p1 (1 / 2) :: cs)
      | _ => some []

/-- Fuel-indexed version of the reversal-consuming loop of
`extractCycles`; each closure loop runs on the given fuel budget. -/
def extractLoopF (fuel : ℕ) (points : List RPoint) : List RPoint → Option (List Cycle × List RPoint)
  | [] => some ([], points)
  | r :: rs =>
      match closeLoopF fuel (r :: points) with
      | none => none
      | some s =>
          match extractLoopF fuel s.2 rs with
          | none => none
          | some t => some (s.1 ++ t.1, t.2)

/-- Fuel-indexed version of `extractCycles`. -/
def extractCyclesF (fuel : ℕ) (series : List ℚ) : Option (List Cycle) :=
  match extractLoopF fuel [] (reversals series) with
  | none => none
  | some s =>
      match drainF fuel s.2.reverse with
      | none => none
      | some ds => some (s.1 ++ ds)

/-- Fuel-indexed version of the whole pipeline `countCycles`. -/
def countCyclesF (fuel : ℕ) (series : List ℚ) (binsize : Option ℚ) :
    Option (List (ℚ × ℚ)) :=
  match extractCyclesF fuel series with
  | none => none
  | some cs => some (aggregate (cs.map (fun c => (c.1, c.2.2.1))) binsize)

theorem sortEntries_perm (l : List (ℚ × ℚ)) : (sortEntries l).Perm l :=
  List.mergeSort_perm l _

theorem sortEntries_pairwise_le (l : List (ℚ × ℚ)) :
    (sortEntries l).Pairwise (fun a b => a.1 ≤ b.1) := by
  have h := @List.sorted_mergeSort (ℚ × ℚ) (fun a b => decide (a.1 ≤ b.1))
    (fun a b c hab hbc => by
      simp only [decide_eq_true_eq] at *
      exact le_trans hab hbc)
    (fun a b => by
      simp only [Bool.or_eq_true, decide_eq_true_eq]
      exact le_total a.1 b.1) l
  exact h.imp (fun hab => by simpa using hab)

theorem pairwise_key_lt_of_le {l : List (ℚ × ℚ)}
    (h1 : l.Pairwise (fun a b => a.1 ≤ b.1)) (h2 : (l.map Prod.fst).Nodup) :
    l.Pairwise (fun a b => a.1 < b.1) := by
  have h2' : l.Pairwise (fun a b => a.1 ≠ b.1) := List.pairwise_map.mp h2
  exact (h1.and h2').imp (fun h => lt_of_le_of_ne h.1 h.2)

theorem sortEntries_eq {l L : List (ℚ × ℚ)} (hnd : (l.map Prod.fst).Nodup)
    (hp : l.Perm L) (hs : L.Pairwise (fun a b => a.1 < b.1)) : sortEntries l = L := by
  haveI : IsAntisymm (ℚ × ℚ) (fun a b => a.1 < b.1) :=
    ⟨fun a b h1 h2 => absurd (h1.trans h2) (lt_irrefl _)⟩
  have hnd' : ((sortEntries l).map Prod.fst).Nodup :=
    (((sortEntries_perm l).symm).map Prod.fst).nodup hnd
  exact List.eq_of_perm_of_sorted ((sortEntries_perm l).trans hp)
    (pairwise_key_lt_of_le (sortEntries_pairwise_le l) hnd') hs

theorem reversals_ex1 : reversals [0, 5, 2, 8, 12] = [(0, 0), (2, 5), (3, 2), (4, 12)] := by
  norm_num [reversals, revLoop, List.enum, List.enumFrom]

theorem extractCycles_ex1 : extractCycles [0, 5, 2, 8, 12]
    = [(3, 7 / 2, 1, 2, 3), (12, 6, 1 / 2, 0, 4)] := by
  have hloop : extractLoop [] (reversals [0, 5, 2, 8, 12])
      = ([(3, 7 / 2, 1, 2, 3)], [(4, 12), (0, 0)]) := by
    rw [reversals_ex1]; norm_num [extractLoop, closeLoop, formatOutput]
  rw [extractCycles, hloop]
  norm_num [drainAll, drain, formatOutput]

/-- C4: on the signal `[0, 5, 2, 8, 12]` the reversal sequence is
`[(0,0), (2,5), (3,2), (4,12)]`; the extracted cycles are exactly
`(range 3, mean 3.5, count 1, start 2, end 3)` followed by
`(range 12, mean 6, count 0.5, start 0, end 4)`; the histogram without
binning is `[(3, 1), (12, 0.5)]`; and the histogram with bin width 5 is
`[(5, 1), (10, 0), (15, 0.5)]`. -/
theorem scenario_0_5_2_8_12 :
    reversals [0, 5, 2, 8, 12] = [(0, 0), (2, 5), (3, 2), (4, 12)]
    ∧ extractCycles [0, 5, 2, 8, 12] = [(3, 7 / 2, 1, 2, 3), (12, 6, 1 / 2, 0, 4)]
    ∧ countCycles [0, 5, 2, 8, 12] none = [(3, 1), (12, 1 / 2)]
    ∧ countCycles [0, 5, 2, 8, 12] (some 5) = [(5, 1), (10, 0), (15, 1 / 2)] := by
  have hmap : (extractCycles [0, 5, 2, 8, 12]).map (fun c => (c.1, c.2.2.1))
      = [((3 : ℚ), (1 : ℚ)), (12, 1 / 2)] := by
    rw [extractCycles_ex1]; norm_num
  have hnone : countCycles [0, 5, 2, 8, 12] none = [(3, 1), (12, 1 / 2)] := by
    rw [countCycles, hmap]
    show sortEntries _ = _
    have hb : ([((3 : ℚ), (1 : ℚ)), (12, 1 / 2)].foldl
        (fun acc rc => bump acc rc.1 rc.2) []) = [(3, 1), (12, 1 / 2)] := by
      norm_num [bump]
    rw [hb]
    exact sortEntries_eq (by norm_num) (List.Perm.refl _) (by norm_num)
  have hc1 : (⌈(3 : ℚ) / 5⌉ : ℤ) = 1 := by norm_num [Int.ceil_eq_iff]
  have hc2 : (⌈(12 : ℚ) / 5⌉ : ℤ) = 3 := by norm_num [Int.ceil_eq_iff]
  have hbin : countCycles [0, 5, 2, 8, 12] (some 5) = [(5, 1), (10, 0), (15, 1 / 2)] := by
    rw [countCycles, hmap]
    show sortEntries _ = _
    have hbc : binCounts 5 [((3 : ℚ), (1 : ℚ)), (12, 1 / 2)] = [(5, 1), (15, 1 / 2)] := by
      norm_num [binCounts, bump, hc1, hc2]
    have hnm : nmaxOf 5 [((3 : ℚ), (1 : ℚ)), (12, 1 / 2)] = 3 := by
      norm_num [nmaxOf, hc1, hc2]
    have hde : densify 5 3 [((5 : ℚ), (1 : ℚ)), (15, 1 / 2)]
        = [(5, 1), (15, 1 / 2), (10, 0)] := by
      have h2 : ((3 : ℤ) - 1).toNat = 2 := by decide
      have hr2 : List.range 2 = [0, 1] := by decide
      rw [densify, h2, hr2]
      norm_num [ensure]
    rw [hbc, hnm, hde]
    exact sortEntries_eq (by norm_num)
      (List.Perm.cons _ (List.Perm.swap _ _ _)) (by norm_num)
  exact ⟨reversals_ex1, extractCycles_ex1, hnone, hbin⟩

/-- C6: on the signal `[0, 5, 0]` the reversal sequence is
`[(0,0), (2,5), (2,0)]` — two adjacent entries sharing the final index 2
with different values, from the unconditional final-sample append; cycle
extraction emits exactly two half cycles of range 5 each, and aggregation
without binning returns `[(5, 1)]`. -/
theorem scenario_0_5_0 :
    reversals [0, 5, 0] = [(0, 0), (2, 5), (2, 0)]
    ∧ extractCycles [0, 5, 0] = [(5, 5 / 2, 1 / 2, 0, 2), (5, 5 / 2, 1 / 2, 2, 2)]
    ∧ countCycles [0, 5, 0] none = [(5, 1)] := by
  have hrev : reversals [0, 5, 0] = [(0, 0), (2, 5), (2, 0)] := by
    norm_num [reversals, revLoop, List.enum, List.enumFrom]
  have hloop : extractLoop [] (reversals [0, 5, 0])
      = ([(5, 5 / 2, 1 / 2, 0, 2)], [(2, 0), (2, 5)]) := by
    rw [hrev]; norm_num [extractLoop, closeLoop, formatOutput]
  have hext : extractCycles [0, 5, 0] = [(5, 5 / 2, 1 / 2, 0, 2), (5, 5 / 2, 1 / 2, 2, 2)] := by
    rw [extractCycles, hloop]
    norm_num [drainAll, drain, formatOutput]
  have hmap : (extractCycles [0, 5, 0]).map (fun c => (c.1, c.2.2.1))
      = [((5 : ℚ), (1 / 2 : ℚ)), (5, 1 / 2)] := by
    rw [hext]; norm_num
  have hnone : countCycles [0, 5, 0] none = [(5, 1)] := by
    rw [countCycles, hmap]
    show sortEntries _ = _
    have hb : ([((5 : ℚ), (1 / 2 : ℚ)), (5, 1 / 2)].foldl
        (fun acc rc => bump acc rc.1 rc.2) []) = [(5, 1)] := by
      norm_num [bump]
    rw [hb]
    exact sortEntries_eq (by norm_num) (List.Perm.refl _) (by norm_num)
  exact ⟨hrev, hext, hnone⟩

/-- C3 (code evaluation at the failing input): with the non-positive bin
width `-5`, `countCycles` on the signal `[0, 5, 2, 8, 12]` returns the
histogram `[(0, 1), (10, 0.5)]` instead of failing: the code performs no
validation of `binsize` at all. -/
theorem countCycles_negative_binsize_returns_result :
    countCycles [0, 5, 2, 8, 12] (some (-5)) = [(0, 1), (10, 1 / 2)] := by
  have hmap : (extractCycles [0, 5, 2, 8, 12]).map (fun c => (c.1, c.2.2.1))
      = [((3 : ℚ), (1 : ℚ)), (12, 1 / 2)] := by
    rw [extractCycles_ex1]; norm_num
  have hc1 : (⌈-((3 : ℚ) / 5)⌉ : ℤ) = 0 := by norm_num [Int.ceil_eq_iff]
  have hc2 : (⌈-((12 : ℚ) / 5)⌉ : ℤ) = -2 := by norm_num [Int.ceil_eq_iff]
  rw [countCycles, hmap]
  show sortEntries _ = _
  have hbc : binCounts (-5) [((3 : ℚ), (1 : ℚ)), (12, 1 / 2)] = [(0, 1), (10, 1 / 2)] := by
    norm_num [binCounts, bump, hc1, hc2]
  have hnm : nmaxOf (-5) [((3 : ℚ), (1 : ℚ)), (12, 1 / 2)] = 0 := by
    norm_num [nmaxOf, hc1, hc2]
  have hde : densify (-5) 0 [((0 : ℚ), (1 : ℚ)), (10, 1 / 2)] = [(0, 1), (10, 1 / 2)] := by
    have h0 : ((0 : ℤ) - 1).toNat = 0 := by decide
    rw [densify, h0]
    norm_num [List.range_zero]
  rw [hbc, hnm, hde]
  exact sortEntries_eq (by norm_num) (List.Perm.refl _) (by norm_num)

theorem cycleCountSum_cons (c : Cycle) (l : List Cycle) :
    cycleCountSum (c :: l) = c.2.2.1 + cycleCountSum l := by
  simp [cycleCountSum]

theorem cycleCountSum_append (l1 l2 : List Cycle) :
    cycleCountSum (l1 ++ l2) = cycleCountSum l1 + cycleCountSum l2 := by
  simp [cycleCountSum]

theorem closeLoop_count (top : RPoint) : ∀ below : List RPoint,
    2 * cycleCountSum (closeLoop top below).1 + ((closeLoop top below).2.length : ℚ)
      = (below.length : ℚ) + 1
  | [] => by norm_num [closeLoop, cycleCountSum]
  | [p2] => by norm_num [closeLoop, cycleCountSum]
  | p2 :: p1 :: rest => by
      by_cases h : |top.2 - p2.2| < |p2.2 - p1.2|
      · simp only [closeLoop, if_pos h]
        norm_num [cycleCountSum]
      · cases rest with
        | nil =>
            simp only [closeLoop, if_neg h]
            norm_num [cycleCountSum, formatOutput]
        | cons q rest' =>
            have ih := closeLoop_count top (q :: rest')
            simp only [closeLoop, if_neg h, cycleCountSum_cons, formatOutput]
            push_cast [List.length_cons] at *
            linarith

theorem extractLoop_count : ∀ (rs points : List RPoint),
    2 * cycleCountSum (extractLoop points rs).1 + ((extractLoop points rs).2.length : ℚ)
      = (points.length : ℚ) + (rs.length : ℚ)
  | [], points => by simp [extractLoop, cycleCountSum]
  | r :: rs, points => by
      have hc := closeLoop_count r points
      have ih := extractLoop_count rs (closeLoop r points).2
      simp only [extractLoop, cycleCountSum_append, List.length_cons]
      push_cast at *
      linarith

theorem drain_count : ∀ (p0 : RPoint) (rest : List RPoint),
    2 * cycleCountSum (drain p0 rest) = (rest.length : ℚ)
  | _, [] => by simp [drain, cycleCountSum]
  | p0, p1 :: rest => by
      have ih := drain_count p1 rest
      simp only [drain, cycleCountSum_cons, formatOutput, List.length_cons]
      push_cast at *
      linarith

theorem closeLoop_stack_ne_nil (top : RPoint) : ∀ below : List RPoint,
    (closeLoop top below).2 ≠ []
  | [] => by simp [closeLoop]
  | [p2] => by simp [closeLoop]
  | p2 :: p1 :: rest => by
      by_cases h : |top.2 - p2.2| < |p2.2 - p1.2|
      · simp [closeLoop, h]
      · cases rest with
        | nil => simp [closeLoop, h]
        | cons q rest' =>
            have ih := closeLoop_stack_ne_nil top (q :: rest')
            simp only [closeLoop, if_neg h]
            exact ih

theorem extractLoop_stack_ne_nil : ∀ (rs points : List RPoint),
    points ≠ [] ∨ rs ≠ [] → (extractLoop points rs).2 ≠ []
  | [], points => fun h => by
      simp only [extractLoop]
      exact h.resolve_right (fun hr => hr rfl)
  | r :: rs, points => fun _ => by
      have ih := extractLoop_stack_ne_nil rs (closeLoop r points).2
      simp only [extractLoop]
      exact ih (Or.inl (closeLoop_stack_ne_nil r points))

/-- C1 counterexample: on the signal `[0, 5, 2, 8, 12]` the sum of
`count` over the extracted cycles is `1.5`, while the number of reversals
minus one is `3`, so the claimed conservation identity fails as stated. -/
theorem conservation_counterexample :
    ¬ (cycleCountSum (extractCycles [0, 5, 2, 8, 12])
        = ((reversals [0, 5, 2, 8, 12]).length : ℚ) - 1) := by
  rw [extractCycles_ex1, reversals_ex1]
  norm_num [cycleCountSum]

/-- C1 (amended): for every valid input signal (length ≥ 2), twice the
sum of `count` over all cycles emitted by the extractor equals the number
of reversals minus one: each reversal transition contributes exactly one
half-cycle-unit (0.5) of closure. -/
theorem conservation_halved (series : List ℚ) (h : 2 ≤ series.length) :
    2 * cycleCountSum (extractCycles series) + 1 = ((reversals series).length : ℚ) := by
  have hne : reversals series ≠ [] := by
    match series, h with
    | x0 :: x1 :: rest, _ => simp [reversals]
  have hN : (extractLoop [] (reversals series)).2 ≠ [] :=
    extractLoop_stack_ne_nil (reversals series) [] (Or.inr hne)
  have hrev_ne : ((extractLoop [] (reversals series)).2).reverse ≠ [] := by
    simpa using hN
  obtain ⟨p0, rest, hps⟩ := List.exists_cons_of_ne_nil hrev_ne
  have hlen2 : ((extractLoop [] (reversals series)).2.length : ℚ)
      = (rest.length : ℚ) + 1 := by
    have hl : (extractLoop [] (reversals series)).2.length
        = ((extractLoop [] (reversals series)).2).reverse.length :=
      (List.length_reverse _).symm
    rw [hl, hps]
    push_cast [List.length_cons]
    ring
  have hec : extractCycles series
      = (extractLoop [] (reversals series)).1 ++ drain p0 rest := by
    rw [extractCycles, hps]
    rfl
  have h1 := extractLoop_count (reversals series) []
  have h2 := drain_count p0 rest
  rw [hec, cycleCountSum_append]
  push_cast [List.length_nil] at *
  linarith

theorem conservation_halved_witness :
    2 ≤ ([0, 5, 2, 8, 12] : List ℚ).length
    ∧ 2 * cycleCountSum (extractCycles [0, 5, 2, 8, 12]) + 1
        = ((reversals [0, 5, 2, 8, 12]).length : ℚ) :=
  ⟨by norm_num, conservation_halved [0, 5, 2, 8, 12] (by norm_num)⟩

/-- C5: one iteration of the inner closure loop on a stack holding at
least 3 points, with `X` the innermost range and `Y` the range below it:
if `X < Y` nothing is emitted and the stack is left unchanged; if
`X ≥ Y` (ties included) and the stack has exactly 3 points, a half cycle
(count 0.5) spanning the two oldest points `p1, p2` is emitted and only
the bottom point is removed; if `X ≥ Y` and the stack has more than 3
points, a full cycle (count 1) spanning the two middle points of the top
three is emitted, the top three are removed and only the newest is
re-pushed, the loop continuing on that stack with everything below
preserved.  (Stacks are head-first: the head is the newest point.) -/
theorem closeLoop_step (top p2 p1 : RPoint) (rest : List RPoint) :
    (|top.2 - p2.2| < |p2.2 - p1.2| →
      closeLoop top (p2 :: p1 :: rest) = ([], top :: p2 :: p1 :: rest))
    ∧ (¬ |top.2 - p2.2| < |p2.2 - p1.2| → rest = [] →
      closeLoop top (p2 :: p1 :: rest) = ([formatOutput p1 p2 (1 / 2)], [top, p2]))
    ∧ (¬ |top.2 - p2.2| < |p2.2 - p1.2| → rest ≠ [] →
      closeLoop top (p2 :: p1 :: rest)
        = (formatOutput p1 p2 1 :: (closeLoop top rest).1, (closeLoop top rest).2)) := by
  refine ⟨fun h => ?_, fun h hr => ?_, fun h hr => ?_⟩
  · simp [closeLoop, h]
  · subst hr; simp [closeLoop, h]
  · obtain ⟨q, rest', rfl⟩ := List.exists_cons_of_ne_nil hr
    simp [closeLoop, h]

theorem closeLoop_step_witness :
    ((|(2 : ℚ) - 3| < |(3 : ℚ) - 0|)
      ∧ closeLoop (2, 2) [(1, 3), (0, 0)] = ([], [(2, 2), (1, 3), (0, 0)]))
    ∧ ((¬ |(9 : ℚ) - 3| < |(3 : ℚ) - 0|)
      ∧ closeLoop (2, 9) [(1, 3), (0, 0)]
          = ([formatOutput (0, 0) (1, 3) (1 / 2)], [(2, 9), (1, 3)]))
    ∧ closeLoop (3, 9) [(2, 3), (1, 0), (0, 7)]
        = (formatOutput (1, 0) (2, 3) 1 :: (closeLoop (3, 9) [(0, 7)]).1,
            (closeLoop (3, 9) [(0, 7)]).2) :=
  ⟨⟨by norm_num, (closeLoop_step (2, 2) (1, 3) (0, 0) []).1 (by norm_num)⟩,
    ⟨by norm_num, (closeLoop_step (2, 9) (1, 3) (0, 0) []).2.1 (by norm_num) rfl⟩,
    (closeLoop_step (3, 9) (2, 3) (1, 0) [(0, 7)]).2.2 (by norm_num) (by simp)⟩

theorem rangesDecreasing_tail (a : RPoint) (l : List RPoint)
    (h : rangesDecreasing (a :: l)) : rangesDecreasing l := by
  cases l with
  | nil => simp [rangesDecreasing]
  | cons b l' =>
      simp only [rangesDecreasing, List.tail_cons, List.zipWith_cons_cons] at *
      exact h.tail

theorem closeLoop_preserves_invariant (top : RPoint) : ∀ below : List RPoint,
    rangesDecreasing below → rangesDecreasing (closeLoop top below).2
  | [], _ => by simp [closeLoop, rangesDecreasing]
  | [p2], _ => by simp [closeLoop, rangesDecreasing]
  | p2 :: p1 :: rest, hb => by
      by_cases h : |top.2 - p2.2| < |p2.2 - p1.2|
      · simp only [closeLoop, if_pos h]
        simp only [rangesDecreasing, List.tail_cons, List.zipWith_cons_cons] at *
        exact List.Chain'.cons h hb
      · cases rest with
        | nil => simp [closeLoop, h, rangesDecreasing]
        | cons q rest' =>
            have hr : rangesDecreasing (q :: rest') :=
              rangesDecreasing_tail p1 _ (rangesDecreasing_tail p2 _ hb)
            have ih := closeLoop_preserves_invariant top (q :: rest') hr
            simp only [closeLoop, if_neg h]
            exact ih

theorem extractLoop_preserves_invariant : ∀ (rs points : List RPoint),
    rangesDecreasing points → rangesDecreasing (extractLoop points rs).2
  | [], points => fun h => by simpa [extractLoop] using h
  | r :: rs, points => fun h => by
      have ih := extractLoop_preserves_invariant rs (closeLoop r points).2
        (closeLoop_preserves_invariant r points h)
      simpa [extractLoop] using ih

/-- C10: at every moment when the extractor is about to push the next
incoming reversal — equivalently, whenever the inner closure loop has
exited, i.e. after any prefix `rs1` of the reversal stream has been
consumed — every three consecutive working-stack points (bottom to top)
`p_i, p_{i+1}, p_{i+2}` satisfy
`|p_{i+2}.value − p_{i+1}.value| < |p_{i+1}.value − p_i.value|`: the
consecutive ranges in the stack strictly decrease from bottom to top.
(The stack is head-first, so `rangesDecreasing` reads the consecutive
ranges from the top downwards and requires them strictly increasing.) -/
theorem stack_ranges_decreasing (series : List ℚ) (rs1 rs2 : List RPoint)
    (h : reversals series = rs1 ++ rs2) :
    rangesDecreasing ((extractLoop [] rs1).2) :=
  extractLoop_preserves_invariant rs1 [] (by simp [rangesDecreasing])

theorem stack_ranges_decreasing_witness :
    rangesDecreasing ((extractLoop [] [(0, 0), (2, 5), (3, 2)]).2) :=
  stack_ranges_decreasing [0, 5, 2, 8, 12] [(0, 0), (2, 5), (3, 2)] [(4, 12)]
    (by rw [reversals_ex1]; rfl)

theorem sumSnd_append (l1 l2 : List (ℚ × ℚ)) :
    sumSnd (l1 ++ l2) = sumSnd l1 + sumSnd l2 := by
  simp [sumSnd]

theorem bump_sumSnd : ∀ (counts : List (ℚ × ℚ)) (k v : ℚ),
    sumSnd (bump counts k v) = sumSnd counts + v
  | [], k, v => by simp [bump, sumSnd]
  | (k1, v1) :: rest, k, v => by
      by_cases h : k1 = k
      · simp only [bump, if_pos h]
        simp [sumSnd]
        ring
      · have ih := bump_sumSnd rest k v
        simp only [bump, if_neg h]
        simp [sumSnd] at *
        linarith

theorem foldl_bump_sumSnd (f : ℚ × ℚ → ℚ) : ∀ (l acc : List (ℚ × ℚ)),
    sumSnd (l.foldl (fun a rc => bump a (f rc) rc.2) acc) = sumSnd acc + sumSnd l
  | [], acc => by simp [sumSnd]
  | rc :: l, acc => by
      have ih := foldl_bump_sumSnd f l (bump acc (f rc) rc.2)
      simp only [List.foldl_cons] at *
      rw [ih, bump_sumSnd]
      simp [sumSnd]
      ring

theorem ensure_sumSnd (counts : List (ℚ × ℚ)) (k : ℚ) :
    sumSnd (ensure counts k) = sumSnd counts := by
  rw [ensure]
  split
  · rfl
  · rw [sumSnd_append]; simp [sumSnd]

theorem densify_sumSnd (b : ℚ) (nmax : ℤ) (counts : List (ℚ × ℚ)) :
    sumSnd (densify b nmax counts) = sumSnd counts := by
  rw [densify]
  generalize List.range (nmax - 1).toNat = js
  induction js generalizing counts with
  | nil => rfl
  | cons j js ih =>
      simp only [List.foldl_cons]
      rw [ih, ensure_sumSnd]

theorem sortEntries_sumSnd (l : List (ℚ × ℚ)) : sumSnd (sortEntries l) = sumSnd l :=
  ((sortEntries_perm l).map Prod.snd).sum_eq

/-- C8: for every cycle list (as `(range, count)` pairs) and every valid
bin width (and likewise with no binning), the sum of `totalCount` over
all histogram entries returned by the aggregator equals the sum of
`count` over all input cycles. -/
theorem aggregate_mass_preservation (cycles : List (ℚ × ℚ)) :
    (∀ b : ℚ, 0 < b → sumSnd (aggregate cycles (some b)) = sumSnd cycles)
    ∧ sumSnd (aggregate cycles none) = sumSnd cycles := by
  constructor
  · intro b _
    show sumSnd (sortEntries _) = _
    rw [sortEntries_sumSnd, densify_sumSnd]
    have h := foldl_bump_sumSnd (fun rc => ((⌈rc.1 / b⌉ : ℤ) : ℚ) * b) cycles []
    simpa [binCounts, sumSnd] using h
  · show sumSnd (sortEntries _) = _
    rw [sortEntries_sumSnd]
    have h := foldl_bump_sumSnd Prod.fst cycles []
    simpa [sumSnd] using h

theorem aggregate_mass_preservation_witness :
    (0 : ℚ) < 5
    ∧ sumSnd (aggregate [(3, 1), (12, 1 / 2)] (some 5))
        = sumSnd [((3 : ℚ), (1 : ℚ)), (12, 1 / 2)] :=
  ⟨by norm_num, (aggregate_mass_preservation [(3, 1), (12, 1 / 2)]).1 5 (by norm_num)⟩

theorem closeLoop_stack_length (top : RPoint) : ∀ below : List RPoint,
    (closeLoop top below).2.length ≤ below.length + 1
  | [] => by simp [closeLoop]
  | [p2] => by simp [closeLoop]
  | p2 :: p1 :: rest => by
      by_cases h : |top.2 - p2.2| < |p2.2 - p1.2|
      · simp [closeLoop, h]
      · cases rest with
        | nil => simp [closeLoop, h]
        | cons q rest' =>
            have ih := closeLoop_stack_length top (q :: rest')
            simp only [closeLoop, if_neg h, List.length_cons] at *
            omega

theorem extractLoop_stack_length : ∀ (rs points : List RPoint),
    (extractLoop points rs).2.length ≤ points.length + rs.length
  | [], points => by simp [extractLoop]
  | r :: rs, points => by
      have hc := closeLoop_stack_length r points
      have ih := extractLoop_stack_length rs (closeLoop r points).2
      simp only [extractLoop, List.length_cons] at *
      omega

theorem closeLoopF_complete : ∀ (fuel : ℕ) (top : RPoint) (below : List RPoint),
    below.length < fuel → closeLoopF fuel (top :: below) = some (closeLoop top below)
  | 0, _, below => fun h => absurd h (by omega)
  | fuel + 1, top, [] => fun _ => by simp [closeLoopF, closeLoop]
  | fuel + 1, top, [p2] => fun _ => by simp [closeLoopF, closeLoop]
  | fuel + 1, top, p2 :: p1 :: rest => fun h => by
      by_cases hxy : |top.2 - p2.2| < |p2.2 - p1.2|
      · simp [closeLoopF, closeLoop, hxy]
      · cases rest with
        | nil =>
            have ih := closeLoopF_complete fuel top [p2]
              (by simp only [List.length_cons, List.length_nil] at h ⊢; omega)
            simp only [closeLoopF, if_neg hxy, ih, closeLoop]
        | cons q rest' =>
            have ih := closeLoopF_complete fuel top (q :: rest')
              (by simp only [List.length_cons] at h ⊢; omega)
            simp only [closeLoopF, if_neg hxy, ih, closeLoop]

theorem drainF_complete : ∀ (fuel : ℕ) (points : List RPoint),
    points.length < fuel → drainF fuel points = some (drainAll points)
  | 0, points => fun h => absurd h (by omega)
  | fuel + 1, [] => fun _ => by simp [drainF, drainAll]
  | fuel + 1, [p0] => fun _ => by simp [drainF, drainAll, drain]
  | fuel + 1, p0 :: p1 :: rest => fun h => by
      have ih := drainF_complete fuel (p1 :: rest)
        (by simp only [List.length_cons] at h ⊢; omega)
      simp only [drainF, ih, drainAll, drain]

theorem extractLoopF_complete : ∀ (rs : List RPoint) (fuel : ℕ) (points : List RPoint),
    points.length + rs.length < fuel →
    extractLoopF fuel points rs = some (extractLoop points rs)
  | [], fuel, points => fun _ => by simp [extractLoopF, extractLoop]
  | r :: rs, fuel, points => fun h => by
      have hc : closeLoopF fuel (r :: points) = some (closeLoop r points) :=
        closeLoopF_complete fuel r points
          (by simp only [List.length_cons] at h; omega)
      have hlen := closeLoop_stack_length r points
      have ih := extractLoopF_complete rs fuel (closeLoop r points).2
        (by simp only [List.length_cons] at h; omega)
      simp only [extractLoopF, hc, ih, extractLoop]

/-- C9: for every finite input signal (and any binning option) the whole
pipeline terminates: running the fuel-metered pipeline — in which the
reversal scan and aggregation folds are bounded by their input length and
each unbounded `while` loop (the inner closure loop and the final drain)
consumes one unit of fuel per iteration — with the explicit finite budget
`(number of reversals) + 1` completes and returns exactly the value of
the total model `countCycles`. -/
theorem pipeline_terminates (series : List ℚ) (binsize : Option ℚ) :
    ∃ fuel : ℕ, countCyclesF fuel series binsize = some (countCycles series binsize) := by
  refine ⟨(reversals series).length + 1, ?_⟩
  have h1 : extractLoopF ((reversals series).length + 1) [] (reversals series)
      = some (extractLoop [] (reversals series)) :=
    extractLoopF_complete (reversals series) _ [] (by simp)
  have hlen := extractLoop_stack_length (reversals series) []
  have h2 : drainF ((reversals series).length + 1)
        (((extractLoop [] (reversals series)).2).reverse)
      = some (drainAll (((extractLoop [] (reversals series)).2).reverse)) := by
    refine drainF_complete _ _ ?_
    rw [List.length_reverse]
    simp only [List.length_nil] at hlen
    omega
  rw [countCyclesF, extractCyclesF, h1]
  simp only [h2, countCycles, extractCycles]

theorem bump_keys : ∀ (counts : List (ℚ × ℚ)) (k v : ℚ),
    (bump counts k v).map Prod.fst =
      if k ∈ counts.map Prod.fst then counts.map Prod.fst
      else counts.map Prod.fst ++ [k]
  | [], k, v => by simp [bump]
  | (k1, v1) :: rest, k, v => by
      by_cases h : k1 = k
      · subst h
        simp [bump]
      · have ih := bump_keys rest k v
        simp only [bump, if_neg h, List.map_cons, ih]
        by_cases hm : k ∈ rest.map Prod.fst
        · simp [hm, Ne.symm h]
        · simp [hm, Ne.symm h]

theorem mem_bump_keys (a : ℚ) (counts : List (ℚ × ℚ)) (k v : ℚ) :
    (a ∈ (bump counts k v).map Prod.fst) ↔ (a ∈ counts.map Prod.fst ∨ a = k) := by
  rw [bump_keys]
  by_cases hc : k ∈ counts.map Prod.fst
  · rw [if_pos hc]
    constructor
    · exact Or.inl
    · rintro (h | rfl)
      · exact h
      · exact hc
  · rw [if_neg hc]
    simp [List.mem_append]

theorem bump_nodup (counts : List (ℚ × ℚ)) (k v : ℚ)
    (h : (counts.map Prod.fst).Nodup) : ((bump counts k v).map Prod.fst).Nodup := by
  rw [bump_keys]
  by_cases hc : k ∈ counts.map Prod.fst
  · rwa [if_pos hc]
  · rw [if_neg hc]
    simp [List.nodup_append, h, hc]

theorem mem_foldl_bump_keys (f : ℚ × ℚ → ℚ) (a : ℚ) : ∀ (l acc : List (ℚ × ℚ)),
    (a ∈ ((l.foldl (fun ac rc => bump ac (f rc) rc.2) acc).map Prod.fst))
      ↔ (a ∈ acc.map Prod.fst ∨ ∃ rc ∈ l, f rc = a)
  | [], acc => by simp
  | rc0 :: l, acc => by
      have ih := mem_foldl_bump_keys f a l (bump acc (f rc0) rc0.2)
      simp only [List.foldl_cons] at *
      rw [ih, mem_bump_keys]
      constructor
      · rintro ((h | rfl) | ⟨rc, hm, hf⟩)
        · exact Or.inl h
        · exact Or.inr ⟨rc0, by simp, rfl⟩
        · exact Or.inr ⟨rc, by simp [hm], hf⟩
      · rintro (h | ⟨rc, hm, hf⟩)
        · exact Or.inl (Or.inl h)
        · rcases List.mem_cons.mp hm with rfl | hm'
          · exact Or.inl (Or.inr hf.symm)
          · exact Or.inr ⟨rc, hm', hf⟩

theorem foldl_bump_nodup (f : ℚ × ℚ → ℚ) : ∀ (l acc : List (ℚ × ℚ)),
    (acc.map Prod.fst).Nodup →
    ((l.foldl (fun ac rc => bump ac (f rc) rc.2) acc).map Prod.fst).Nodup
  | [], acc => fun h => h
  | rc0 :: l, acc => fun h => by
      have ih := foldl_bump_nodup f l (bump acc (f rc0) rc0.2) (bump_nodup acc _ _ h)
      simpa using ih

theorem ensure_any_iff (counts : List (ℚ × ℚ)) (k : ℚ) :
    (counts.any fun e => decide (e.1 = k)) = true ↔ k ∈ counts.map Prod.fst := by
  simp only [List.any_eq_true, decide_eq_true_eq, List.mem_map]

theorem ensure_keys (counts : List (ℚ × ℚ)) (k : ℚ) :
    (ensure counts k).map Prod.fst =
      if k ∈ counts.map Prod.fst then counts.map Prod.fst
      else counts.map Prod.fst ++ [k] := by
  rw [ensure]
  by_cases hc : k ∈ counts.map Prod.fst
  · rw [if_pos ((ensure_any_iff counts k).mpr hc), if_pos hc]
  · rw [if_neg (fun hx => hc ((ensure_any_iff counts k).mp hx)), if_neg hc]
    simp

theorem mem_ensure_keys (a : ℚ) (counts : List (ℚ × ℚ)) (k : ℚ) :
    (a ∈ (ensure counts k).map Prod.fst) ↔ (a ∈ counts.map Prod.fst ∨ a = k) := by
  rw [ensure_keys]
  by_cases hc : k ∈ counts.map Prod.fst
  · rw [if_pos hc]
    constructor
    · exact Or.inl
    · rintro (h | rfl)
      · exact h
      · exact hc
  · rw [if_neg hc]
    simp [List.mem_append]

theorem ensure_nodup (counts : List (ℚ × ℚ)) (k : ℚ)
    (h : (counts.map Prod.fst).Nodup) : ((ensure counts k).map Prod.fst).Nodup := by
  rw [ensure_keys]
  by_cases hc : k ∈ counts.map Prod.fst
  · rwa [if_pos hc]
  · rw [if_neg hc]
    simp [List.nodup_append, h, hc]

theorem mem_ensure_of_mem (counts : List (ℚ × ℚ)) (k : ℚ) {e : ℚ × ℚ}
    (h : e ∈ counts) : e ∈ ensure counts k := by
  rw [ensure]
  split
  · exact h
  · exact List.mem_append_left _ h

theorem ensure_self_mem (counts : List (ℚ × ℚ)) (k : ℚ)
    (h : k ∉ counts.map Prod.fst) : (k, 0) ∈ ensure counts k := by
  rw [ensure, if_neg (fun hx => h ((ensure_any_iff counts k).mp hx))]
  exact List.mem_append_right _ (by simp)

theorem mem_foldl_ensure_keys (g : ℕ → ℚ) (a : ℚ) : ∀ (js : List ℕ) (counts : List (ℚ × ℚ)),
    (a ∈ ((js.foldl (fun ac j => ensure ac (g j)) counts).map Prod.fst))
      ↔ (a ∈ counts.map Prod.fst ∨ ∃ j ∈ js, g j = a)
  | [], counts => by simp
  | j0 :: js, counts => by
      have ih := mem_foldl_ensure_keys g a js (ensure counts (g j0))
      simp only [List.foldl_cons] at *
      rw [ih, mem_ensure_keys]
      constructor
      · rintro ((h | rfl) | ⟨j, hm, hf⟩)
        · exact Or.inl h
        · exact Or.inr ⟨j0, by simp, rfl⟩
        · exact Or.inr ⟨j, by simp [hm], hf⟩
      · rintro (h | ⟨j, hm, hf⟩)
        · exact Or.inl (Or.inl h)
        · rcases List.mem_cons.mp hm with rfl | hm'
          · exact Or.inl (Or.inr hf.symm)
          · exact Or.inr ⟨j, hm', hf⟩

theorem foldl_ensure_nodup (g : ℕ → ℚ) : ∀ (js : List ℕ) (counts : List (ℚ × ℚ)),
    (counts.map Prod.fst).Nodup →
    ((js.foldl (fun ac j => ensure ac (g j)) counts).map Prod.fst).Nodup
  | [], _ => fun h => h
  | j0 :: js, counts => fun h => by
      have ih := foldl_ensure_nodup g js (ensure counts (g j0)) (ensure_nodup counts _ h)
      simpa using ih

theorem mem_foldl_ensure_of_mem (g : ℕ → ℚ) : ∀ (js : List ℕ) (counts : List (ℚ × ℚ))
    {e : ℚ × ℚ}, e ∈ counts → e ∈ js.foldl (fun ac j => ensure ac (g j)) counts
  | [], _ => fun h => h
  | j0 :: js, counts => fun h => by
      have ih := mem_foldl_ensure_of_mem g js (ensure counts (g j0))
        (mem_ensure_of_mem counts (g j0) h)
      simpa using ih

theorem foldl_ensure_zero_mem (g : ℕ → ℚ) (k : ℚ) : ∀ (js : List ℕ) (counts : List (ℚ × ℚ)),
    k ∉ counts.map Prod.fst → (∃ j ∈ js, g j = k) →
    (k, 0) ∈ js.foldl (fun ac j => ensure ac (g j)) counts
  | [], _ => fun _ hex => absurd hex (by simp)
  | j0 :: js, counts => fun hk hex => by
      simp only [List.foldl_cons]
      by_cases h0 : g j0 = k
      · subst h0
        exact mem_foldl_ensure_of_mem g js _ (ensure_self_mem counts (g j0) hk)
      · have hk' : k ∉ (ensure counts (g j0)).map Prod.fst := by
          rw [mem_ensure_keys]
          rintro (h | rfl)
          · exact hk h
          · exact h0 rfl
        obtain ⟨j, hm, hf⟩ := hex
        rcases List.mem_cons.mp hm with rfl | hm'
        · exact absurd hf h0
        · exact foldl_ensure_zero_mem g k js (ensure counts (g j0)) hk' ⟨j, hm', hf⟩

theorem foldl_max_cases (g : ℚ × ℚ → ℤ) : ∀ (l : List (ℚ × ℚ)) (m0 : ℤ),
    l.foldl (fun m rc => max (g rc) m) m0 = m0
      ∨ ∃ rc ∈ l, l.foldl (fun m rc => max (g rc) m) m0 = g rc
  | [], m0 => Or.inl rfl
  | rc0 :: l, m0 => by
      simp only [List.foldl_cons]
      rcases foldl_max_cases g l (max (g rc0) m0) with h | ⟨rc, hm, hf⟩
      · rw [h]
        rcases le_total (g rc0) m0 with hle | hle
        · exact Or.inl (max_eq_right hle)
        · exact Or.inr ⟨rc0, by simp, max_eq_left hle⟩
      · exact Or.inr ⟨rc, by simp [hm], hf⟩

theorem nmaxOf_cases (b : ℚ) (cycles : List (ℚ × ℚ)) :
    nmaxOf b cycles = 0 ∨ ∃ rc ∈ cycles, nmaxOf b cycles = ⌈rc.1 / b⌉ := by
  have h := foldl_max_cases (fun rc => ⌈rc.1 / b⌉) cycles 0
  simpa [nmaxOf] using h

theorem mem_binCounts_keys (b : ℚ) (cycles : List (ℚ × ℚ)) (a : ℚ) :
    a ∈ (binCounts b cycles).map Prod.fst
      ↔ ∃ rc ∈ cycles, ((⌈rc.1 / b⌉ : ℤ) : ℚ) * b = a := by
  have h := mem_foldl_bump_keys (fun rc => ((⌈rc.1 / b⌉ : ℤ) : ℚ) * b) a cycles []
  simpa [binCounts] using h

theorem binCounts_nodup (b : ℚ) (cycles : List (ℚ × ℚ)) :
    ((binCounts b cycles).map Prod.fst).Nodup :=
  foldl_bump_nodup (fun rc => ((⌈rc.1 / b⌉ : ℤ) : ℚ) * b) cycles [] (by simp)

theorem densify_covers (b : ℚ) (nmax : ℤ) (counts : List (ℚ × ℚ)) (i : ℤ)
    (h1 : 1 ≤ i) (h2 : i < nmax) :
    ((i : ℚ) * b) ∈ (densify b nmax counts).map Prod.fst := by
  refine (mem_foldl_ensure_keys (fun j => ((j : ℚ) + 1) * b) ((i : ℚ) * b)
      (List.range (nmax - 1).toNat) counts).mpr (Or.inr ⟨(i - 1).toNat, ?_, ?_⟩)
  · rw [List.mem_range]
    omega
  · have hnn : ((i - 1).toNat : ℤ) = i - 1 := Int.toNat_of_nonneg (by omega)
    have hq : (((i - 1).toNat : ℕ) : ℚ) = (i : ℚ) - 1 := by
      exact_mod_cast congrArg (fun z : ℤ => (z : ℚ)) hnn
    rw [hq]
    ring

theorem densify_keys_mono (b : ℚ) (nmax : ℤ) (counts : List (ℚ × ℚ)) (a : ℚ)
    (h : a ∈ counts.map Prod.fst) : a ∈ (densify b nmax counts).map Prod.fst :=
  (mem_foldl_ensure_keys (fun j => ((j : ℚ) + 1) * b) a
    (List.range (nmax - 1).toNat) counts).mpr (Or.inl h)

theorem densify_keys_sub (b : ℚ) (nmax : ℤ) (counts : List (ℚ × ℚ)) (a : ℚ)
    (h : a ∈ (densify b nmax counts).map Prod.fst) :
    a ∈ counts.map Prod.fst ∨ ∃ j ∈ List.range (nmax - 1).toNat, ((j : ℚ) + 1) * b = a :=
  (mem_foldl_ensure_keys (fun j => ((j : ℚ) + 1) * b) a
    (List.range (nmax - 1).toNat) counts).mp h

theorem densify_zero_mem (b : ℚ) (nmax : ℤ) (counts : List (ℚ × ℚ)) (i : ℤ)
    (h1 : 1 ≤ i) (h2 : i < nmax) (hk : ((i : ℚ) * b) ∉ counts.map Prod.fst) :
    ((i : ℚ) * b, (0 : ℚ)) ∈ densify b nmax counts := by
  refine foldl_ensure_zero_mem (fun j => ((j : ℚ) + 1) * b) ((i : ℚ) * b)
    (List.range (nmax - 1).toNat) counts hk ⟨(i - 1).toNat, ?_, ?_⟩
  · rw [List.mem_range]
    omega
  · have hnn : ((i - 1).toNat : ℤ) = i - 1 := Int.toNat_of_nonneg (by omega)
    have hq : (((i - 1).toNat : ℕ) : ℚ) = (i : ℚ) - 1 := by
      exact_mod_cast congrArg (fun z : ℤ => (z : ℚ)) hnn
    show ((((i - 1).toNat : ℕ) : ℚ) + 1) * b = (i : ℚ) * b
    rw [hq]
    ring

theorem densify_nodup (b : ℚ) (nmax : ℤ) (counts : List (ℚ × ℚ))
    (h : (counts.map Prod.fst).Nodup) : ((densify b nmax counts).map Prod.fst).Nodup :=
  foldl_ensure_nodup (fun j => ((j : ℚ) + 1) * b) (List.range (nmax - 1).toNat) counts h

/-- C7: with a positive bin width `b` the binned histogram has an
explicit entry at every key `i * b` for every integer `i` from 1 up to
the maximum observed `n = ceil(range / b)` — including a zero-count entry
for every such bucket no cycle maps to — bucket 0 only ever appears when
some cycle itself maps to it (it is never densified), and the entries are
strictly ascending by key; without binning, exactly the observed range
values appear as keys, again strictly ascending. -/
theorem aggregate_densification (cycles : List (ℚ × ℚ)) (b : ℚ) (hb : 0 < b) :
    (∀ i : ℤ, 1 ≤ i → i ≤ nmaxOf b cycles →
      ((i : ℚ) * b) ∈ (aggregate cycles (some b)).map Prod.fst)
    ∧ (∀ i : ℤ, 1 ≤ i → i ≤ nmaxOf b cycles →
        (∀ rc ∈ cycles, ⌈rc.1 / b⌉ ≠ i) →
        ((i : ℚ) * b, (0 : ℚ)) ∈ aggregate cycles (some b))
    ∧ ((0 : ℚ) ∈ (aggregate cycles (some b)).map Prod.fst →
        ∃ rc ∈ cycles, ⌈rc.1 / b⌉ = 0)
    ∧ (aggregate cycles (some b)).Pairwise (fun e1 e2 => e1.1 < e2.1)
    ∧ (∀ k : ℚ, k ∈ (aggregate cycles none).map Prod.fst ↔ k ∈ cycles.map Prod.fst)
    ∧ (aggregate cycles none).Pairwise (fun e1 e2 => e1.1 < e2.1) := by
  have hbne : b ≠ 0 := ne_of_gt hb
  have hagg : aggregate cycles (some b)
      = sortEntries (densify b (nmaxOf b cycles) (binCounts b cycles)) := rfl
  have hDnodup : ((densify b (nmaxOf b cycles) (binCounts b cycles)).map Prod.fst).Nodup :=
    densify_nodup b _ _ (binCounts_nodup b cycles)
  have hDperm := sortEntries_perm (densify b (nmaxOf b cycles) (binCounts b cycles))
  refine ⟨?_, ?_, ?_, ?_, ?_, ?_⟩
  · intro i h1 h2
    rw [hagg, (hDperm.map Prod.fst).mem_iff]
    rcases lt_or_eq_of_le h2 with hlt | heq
    · exact densify_covers b _ (binCounts b cycles) i h1 hlt
    · rcases nmaxOf_cases b cycles with h0 | ⟨rc, hm, hf⟩
      · omega
      · refine densify_keys_mono b _ _ _ ((mem_binCounts_keys b cycles _).mpr ⟨rc, hm, ?_⟩)
        rw [← hf, heq]
  · intro i h1 h2 hun
    have hnotin : ((i : ℚ) * b) ∉ (binCounts b cycles).map Prod.fst := by
      rw [mem_binCounts_keys]
      rintro ⟨rc, hm, hf⟩
      have hcast : (⌈rc.1 / b⌉ : ℤ) = i := by
        have h := mul_right_cancel₀ hbne hf
        exact_mod_cast h
      exact hun rc hm hcast
    have hlt : i < nmaxOf b cycles := by
      rcases lt_or_eq_of_le h2 with hlt | heq
      · exact hlt
      · exfalso
        rcases nmaxOf_cases b cycles with h0 | ⟨rc, hm, hf⟩
        · omega
        · exact hun rc hm (by omega)
    rw [hagg, hDperm.mem_iff]
    exact densify_zero_mem b _ _ i h1 hlt hnotin
  · intro h
    rw [hagg, (hDperm.map Prod.fst).mem_iff] at h
    rcases densify_keys_sub b _ _ 0 h with hbc | ⟨j, _, hf⟩
    · obtain ⟨rc, hm, hf⟩ := (mem_binCounts_keys b cycles 0).mp hbc
      refine ⟨rc, hm, ?_⟩
      rcases mul_eq_zero.mp hf with h0 | h0
      · exact_mod_cast h0
      · exact absurd h0 hbne
    · exfalso
      have hpos : (0 : ℚ) < ((j : ℚ) + 1) * b := by positivity
      rw [hf] at hpos
      exact lt_irrefl 0 hpos
  · rw [hagg]
    exact pairwise_key_lt_of_le (sortEntries_pairwise_le _)
      ((hDperm.symm.map Prod.fst).nodup hDnodup)
  · intro k
    have hperm := sortEntries_perm (cycles.foldl (fun acc rc => bump acc rc.1 rc.2) [])
    have hagg0 : aggregate cycles none
        = sortEntries (cycles.foldl (fun acc rc => bump acc rc.1 rc.2) []) := rfl
    rw [hagg0, (hperm.map Prod.fst).mem_iff]
    have h := mem_foldl_bump_keys Prod.fst k cycles []
    rw [h]
    simp [List.mem_map]
  · have hperm := sortEntries_perm (cycles.foldl (fun acc rc => bump acc rc.1 rc.2) [])
    have hnodup0 : ((cycles.foldl (fun acc rc => bump acc rc.1 rc.2) []).map Prod.fst).Nodup :=
      foldl_bump_nodup Prod.fst cycles [] (by simp)
    have hagg0 : aggregate cycles none
        = sortEntries (cycles.foldl (fun acc rc => bump acc rc.1 rc.2) []) := rfl
    rw [hagg0]
    exact pairwise_key_lt_of_le (sortEntries_pairwise_le _)
      ((hperm.symm.map Prod.fst).nodup hnodup0)

theorem aggregate_densification_witness :
    (((2 : ℤ) : ℚ) * 5) ∈ (aggregate [(3, 1), (12, 1 / 2)] (some 5)).map Prod.fst := by
  have hc1 : (⌈(3 : ℚ) / 5⌉ : ℤ) = 1 := by norm_num [Int.ceil_eq_iff]
  have hc2 : (⌈(12 : ℚ) / 5⌉ : ℤ) = 3 := by norm_num [Int.ceil_eq_iff]
  have hnm : nmaxOf 5 [((3 : ℚ), (1 : ℚ)), (12, 1 / 2)] = 3 := by
    norm_num [nmaxOf, hc1, hc2]
  exact (aggregate_densification [(3, 1), (12, 1 / 2)] 5 (by norm_num)).1 2
    (by norm_num) (by rw [hnm]; norm_num)

end Rainflow
